import Mathlib

/-!
Verification of the Counterpoint transit-map core (`src/App.jsx`) against its
natural-language specification.  The JavaScript functions are shallowly
embedded as Lean definitions: JS objects become structures, JS arrays become
lists, JS maps/objects keyed by strings become association lists in key
insertion order, and the unbounded `while` loop of the spiral layout is given
an explicit fuel parameter (returning `none` when the fuel runs out, which the
real loop never does).  `Math.sqrt` (a float operation whose exact value never
affects any property proved here) is abstracted as an arbitrary function
argument, so every theorem about the geometry holds for the actual square
root in particular.
-/

namespace Counterpoint

/-- An artist record ("station").  `x`/`y` are the integer grid coordinates
assigned by the layout engine; the remaining fields are carried through
layout unchanged. -/
structure Artist where
  id : String
  name : String
  year : Option Int
  x : Int
  y : Int
deriving DecidableEq, Repr

/-- A connection record: `from`/`to` artist ids plus the line type
(member/studio/writing/label/feature/cover). -/
structure Conn where
  from_ : String
  to_ : String
  type_ : String
deriving DecidableEq, Repr

/-- The graph state: artists keyed by id (association list in key insertion
order, mirroring the JS object) and the ordered connection list. -/
structure Graph where
  artists : List (String × Artist)
  connections : List Conn
deriving DecidableEq, Repr

/-! ### Grid layout (`autoLayoutStations`) -/

/-- JS `(a.year || 1970)`: a missing (or zero, both falsy) year sorts as 1970. -/
def effYear (a : Artist) : Int :=
  match a.year with
  | none => 1970
  | some y => if y = 0 then 1970 else y

/-- Comparator used by `artistList.sort((a, b) => (a.year || 1970) - (b.year || 1970))`;
the engine sort is stable, which insertion sort reproduces exactly. -/
def yearLE (a b : Artist) : Prop := effYear a ≤ effYear b

instance : DecidableRel yearLE := fun a b => Int.decLe (effYear a) (effYear b)

/-- The mutable cursor of the spiral walk: current cell plus the
direction/step/turn counters. -/
structure SpState where
  x : Int
  y : Int
  dirIndex : Nat
  stepsInDir : Nat
  stepsBeforeTurn : Nat
  turnCount : Nat
deriving DecidableEq, Repr

/-- The four spiral directions: 2 cells east, 1 south, 2 west, 1 north. -/
def dirVec : Nat → Int × Int
  | 0 => (2, 0)
  | 1 => (0, 1)
  | 2 => (-2, 0)
  | _ => (0, -1)

/-- One step of the spiral walk, including the turn bookkeeping (turn after
`stepsBeforeTurn` steps; widen every two turns). -/
def advance (s : SpState) : SpState :=
  let d := dirVec s.dirIndex
  let nx := s.x + d.1
  let ny := s.y + d.2
  let sid := s.stepsInDir + 1
  if s.stepsBeforeTurn ≤ sid then
    let tc := s.turnCount + 1
    ⟨nx, ny, (s.dirIndex + 1) % 4, 0,
      if tc % 2 = 0 then s.stepsBeforeTurn + 1 else s.stepsBeforeTurn, tc⟩
  else
    ⟨nx, ny, s.dirIndex, sid, s.stepsBeforeTurn, s.turnCount⟩

/-- The `while (occupied.has(getKey(x, y)))` loop: walk the spiral until the
current cell is unoccupied.  Fuel-bounded; `none` models non-termination
within the allotted fuel. -/
def findFree : Nat → SpState → List (Int × Int) → Option SpState
  | 0, s, occ => if (s.x, s.y) ∈ occ then none else some s
  | fuel + 1, s, occ =>
    if (s.x, s.y) ∈ occ then findFree fuel (advance s) occ else some s

/-- The `artistList.forEach` body: place each artist (in sorted order) at the
next free spiral cell, record the cell as occupied, and advance once. -/
def layoutGo (fuel : Nat) : List Artist → SpState → List (Int × Int) →
    Option (List (String × Artist))
  | [], _, _ => some []
  | a :: rest, s, occ =>
    match findFree fuel s occ with
    | none => none
    | some s2 =>
      match layoutGo fuel rest (advance s2) ((s2.x, s2.y) :: occ) with
      | none => none
      | some ps => some ((a.id, { a with x := s2.x, y := s2.y }) :: ps)

/-- `autoLayoutStations`: sort by year (stable), then assign spiral cells.
The result is the `positioned` object, keyed by artist id in placement
order. -/
def autoLayoutStations (fuel : Nat) (artists : List Artist) :
    Option (List (String × Artist)) :=
  if artists.isEmpty then some []
  else layoutGo fuel (List.insertionSort yearLE artists) ⟨0, 0, 0, 0, 1, 0⟩ []

theorem findFree_not_mem {fuel : Nat} {s s2 : SpState} {occ : List (Int × Int)}
    (h : findFree fuel s occ = some s2) : (s2.x, s2.y) ∉ occ := by
  induction fuel generalizing s with
  | zero =>
    by_cases hm : (s.x, s.y) ∈ occ
    · simp [findFree, hm] at h
    · simp [findFree, hm] at h
      subst h
      exact hm
  | succ n ih =>
    by_cases hm : (s.x, s.y) ∈ occ
    · simp only [findFree, if_pos hm] at h
      exact ih h
    · simp [findFree, hm] at h
      subst h
      exact hm

theorem layoutGo_spec (fuel : Nat) (l : List Artist) :
    ∀ (s : SpState) (occ : List (Int × Int)) ps,
    layoutGo fuel l s occ = some ps →
      ps.Pairwise (fun p q => (p.2.x, p.2.y) ≠ (q.2.x, q.2.y)) ∧
      (∀ p ∈ ps, (p.2.x, p.2.y) ∉ occ) ∧
      ps.map Prod.fst = l.map Artist.id ∧
      (∀ p ∈ ps, ∃ a ∈ l, p.1 = a.id ∧ p.2 = { a with x := p.2.x, y := p.2.y }) := by
  induction l with
  | nil =>
    intro s occ ps h
    simp [layoutGo] at h
    subst h
    simp
  | cons a rest ih =>
    intro s occ ps h
    cases hf : findFree fuel s occ with
    | none => simp [layoutGo, hf] at h
    | some s2 =>
      cases hg : layoutGo fuel rest (advance s2) ((s2.x, s2.y) :: occ) with
      | none => simp [layoutGo, hf, hg] at h
      | some ps' =>
        simp only [layoutGo, hf, hg, Option.some.injEq] at h
        subst h
        obtain ⟨hpw, hocc, hkeys, hframe⟩ := ih (advance s2) ((s2.x, s2.y) :: occ) ps' hg
        have hs2occ : (s2.x, s2.y) ∉ occ := findFree_not_mem hf
        refine ⟨?_, ?_, ?_, ?_⟩
        · refine List.pairwise_cons.mpr ⟨?_, hpw⟩
          intro q hq
          have := hocc q hq
          simp only [List.mem_cons] at this
          push_neg at this
          simpa using Ne.symm this.1
        · intro p hp
          simp only [List.mem_cons] at hp
          rcases hp with rfl | hp
          · simpa using hs2occ
          · have := hocc p hp
            simp only [List.mem_cons] at this
            push_neg at this
            exact this.2
        · simpa using hkeys
        · intro p hp
          simp only [List.mem_cons] at hp
          rcases hp with rfl | hp
          · exact ⟨a, by simp, rfl, rfl⟩
          · obtain ⟨b, hb, h1, h2⟩ := hframe p hp
            exact ⟨b, by simp [hb], h1, h2⟩

/-- C1: whenever the layout terminates, no two entries of the returned
assignment share a grid cell: the coordinates are pairwise distinct. -/
theorem autoLayout_no_overlap (fuel : Nat) (artists : List Artist)
    (ps : List (String × Artist)) (h : autoLayoutStations fuel artists = some ps) :
    ps.Pairwise (fun p q => (p.2.x, p.2.y) ≠ (q.2.x, q.2.y)) := by
  unfold autoLayoutStations at h
  by_cases he : artists.isEmpty
  · simp [he] at h
    subst h
    simp
  · rw [if_neg he] at h
    exact (layoutGo_spec fuel _ _ _ _ h).1

/-- An input for the layout witnesses. -/
def demoArtists : List Artist :=
  [⟨"a", "A", some 1960, 0, 0⟩, ⟨"b", "B", some 1970, 0, 0⟩, ⟨"c", "C", none, 0, 0⟩]

/-- The layout computed for `demoArtists` (first three spiral cells). -/
def demoPositioned : List (String × Artist) :=
  [("a", ⟨"a", "A", some 1960, 0, 0⟩), ("b", ⟨"b", "B", some 1970, 2, 0⟩),
   ("c", ⟨"c", "C", none, 2, 1⟩)]

/-- Concrete witness for C1: a three-artist layout succeeds and its cells are
pairwise distinct. -/
theorem autoLayout_no_overlap_witness :
    autoLayoutStations 32 demoArtists = some demoPositioned ∧
    demoPositioned.Pairwise (fun p q => (p.2.x, p.2.y) ≠ (q.2.x, q.2.y)) :=
  ⟨by decide, autoLayout_no_overlap 32 demoArtists demoPositioned (by decide)⟩

/-- C10: whenever the layout terminates, the returned assignment is keyed by
exactly the input ids (as a multiset: nothing added, nothing dropped), and
each output record agrees with its input record on every field other than
the rewritten `x` and `y`. -/
theorem autoLayout_frame (fuel : Nat) (artists : List Artist)
    (ps : List (String × Artist)) (h : autoLayoutStations fuel artists = some ps) :
    (ps.map Prod.fst).Perm (artists.map Artist.id) ∧
    (∀ p ∈ ps, ∃ a ∈ artists, p.1 = a.id ∧ p.2 = { a with x := p.2.x, y := p.2.y }) := by
  unfold autoLayoutStations at h
  by_cases he : artists.isEmpty
  · simp [he] at h
    subst h
    rw [List.isEmpty_iff] at he
    subst he
    simp
  · rw [if_neg he] at h
    obtain ⟨-, -, hkeys, hframe⟩ := layoutGo_spec fuel _ _ _ _ h
    constructor
    · rw [hkeys]
      exact (List.perm_insertionSort yearLE artists).map Artist.id
    · intro p hp
      obtain ⟨a, ha, h1, h2⟩ := hframe p hp
      exact ⟨a, (List.perm_insertionSort yearLE artists).mem_iff.mp ha, h1, h2⟩

/-- Concrete witness for C10: on `demoArtists` the output ids are a
permutation of the input ids and every non-coordinate field is preserved. -/
theorem autoLayout_frame_witness :
    autoLayoutStations 32 demoArtists = some demoPositioned ∧
    ((demoPositioned.map Prod.fst).Perm (demoArtists.map Artist.id) ∧
     (∀ p ∈ demoPositioned, ∃ a ∈ demoArtists,
        p.1 = a.id ∧ p.2 = { a with x := p.2.x, y := p.2.y })) :=
  ⟨by decide, autoLayout_frame 32 demoArtists demoPositioned (by decide)⟩

/-! ### Route finder (`findAllPaths`) -/

/-- One step of a found route, JS `{ conn, artistId }`. -/
structure Step where
  conn : Conn
  artistId : String
deriving DecidableEq, Repr

/-- The body of the `graph.connections.forEach` in the DFS: the id this
connection leads to from `cur`, if any (`from`-direction first, then the
`to`-direction, skipping visited ids). -/
def connStep (c : Conn) (cur : String) (visited : List String) : Option String :=
  if c.from_ = cur ∧ c.to_ ∉ visited then some c.to_
  else if c.to_ = cur ∧ c.from_ ∉ visited then some c.from_
  else none

/-- The recursive `dfs` of `findAllPaths`, with the depth counter replaced by
the remaining fuel (`fuel = maxDepth + 1 - depth`); it returns all recorded
paths in discovery order. -/
def dfs (conns : List Conn) (endId : String) :
    Nat → String → List Step → List String → List (List Step)
  | 0, _, _, _ => []
  | fuel + 1, cur, path, visited =>
    if cur = endId then [path]
    else
      (conns.map (fun c =>
        match connStep c cur (cur :: visited) with
        | some nid => dfs conns endId fuel nid (path ++ [⟨c, nid⟩]) (cur :: visited)
        | none => [])).flatten

/-- Comparator of the final `allPaths.sort((a, b) => a.length - b.length)`. -/
def lenLE (p q : List Step) : Prop := p.length ≤ q.length

instance : DecidableRel lenLE := fun p q => Nat.decLe p.length q.length

/-- `findAllPaths(graph, startId, endId, maxDepth)`: guard falsy/equal ids,
enumerate all simple paths by bounded DFS, and return the first shortest one
(the engine sort is stable, which insertion sort reproduces). -/
def findAllPaths (g : Graph) (startId endId : String) (maxDepth : Nat) :
    Option (List Step) :=
  if startId = "" ∨ endId = "" ∨ startId = endId then none
  else
    match List.insertionSort lenLE (dfs g.connections endId (maxDepth + 1) startId [] []) with
    | [] => none
    | p :: _ => some p

/-- A connection joins `a` to `b` in the undirected view of the graph. -/
def Connects (c : Conn) (a b : String) : Prop :=
  (c.from_ = a ∧ c.to_ = b) ∨ (c.to_ = a ∧ c.from_ = b)

/-- `chain conns endId cur visited ext`: `ext` is a simple path of the
connection list from `cur` to `endId` whose nodes avoid `visited` and each
other (the specification's notion of a simple path of the relationship
graph). -/
def chain (conns : List Conn) (endId : String) :
    String → List String → List Step → Prop
  | cur, _, [] => cur = endId
  | cur, visited, st :: rest =>
    st.conn ∈ conns ∧ Connects st.conn cur st.artistId ∧
      st.artistId ∉ (cur :: visited) ∧
      chain conns endId st.artistId (cur :: visited) rest

theorem connStep_iff {c : Conn} {cur nid : String} {v : List String} (hcur : cur ∈ v) :
    connStep c cur v = some nid ↔ (Connects c cur nid ∧ nid ∉ v) := by
  unfold connStep
  constructor
  · intro h
    split_ifs at h with h1 h2
    · simp only [Option.some.injEq] at h
      subst h
      exact ⟨Or.inl ⟨h1.1, rfl⟩, h1.2⟩
    · simp only [Option.some.injEq] at h
      subst h
      exact ⟨Or.inr ⟨h2.1, rfl⟩, h2.2⟩
  · rintro ⟨hconn, hnv⟩
    rcases hconn with ⟨hf, ht⟩ | ⟨ht, hf⟩
    · rw [if_pos ⟨hf, ht ▸ hnv⟩, ht]
    · rw [if_neg, if_pos ⟨ht, hf ▸ hnv⟩, hf]
      rintro ⟨-, hto⟩
      exact hto (ht ▸ hcur)

theorem dfs_sound {conns : List Conn} {endId : String} :
    ∀ (fuel : Nat) (cur : String) (path : List Step) (visited : List String)
      (q : List Step), q ∈ dfs conns endId fuel cur path visited →
      ∃ ext, q = path ++ ext ∧ chain conns endId cur visited ext ∧
        ext.length < fuel := by
  intro fuel
  induction fuel with
  | zero => intro cur path visited q h; simp [dfs] at h
  | succ n ih =>
    intro cur path visited q h
    by_cases hc : cur = endId
    · simp only [dfs, if_pos hc, List.mem_singleton] at h
      subst h
      exact ⟨[], by simp, hc, by simp⟩
    · simp only [dfs, if_neg hc, List.mem_flatten, List.mem_map] at h
      obtain ⟨l, ⟨c, hcmem, hceq⟩, hql⟩ := h
      subst hceq
      cases hcs : connStep c cur (cur :: visited) with
      | none => simp only [hcs] at hql; exact absurd hql (by simp)
      | some nid =>
        simp only [hcs] at hql
        obtain ⟨ext, hq, hch, hlen⟩ := ih nid (path ++ [⟨c, nid⟩]) (cur :: visited) q hql
        have hcs2 := (connStep_iff (List.mem_cons_self cur visited)).mp hcs
        refine ⟨⟨c, nid⟩ :: ext, ?_, ⟨hcmem, hcs2.1, hcs2.2, hch⟩, ?_⟩
        · simpa [List.append_assoc] using hq
        · simpa using Nat.succ_lt_succ hlen

theorem chain_avoids_end {conns : List Conn} {endId : String} :
    ∀ (ext : List Step) (cur : String) (v : List String),
      chain conns endId cur v ext → ext ≠ [] → ∀ x ∈ cur :: v, x ≠ endId := by
  intro ext
  induction ext with
  | nil => intro cur v _ hne; exact absurd rfl hne
  | cons st rest ih =>
    intro cur v hch _
    obtain ⟨-, -, hnv, hrest⟩ := hch
    by_cases hre : rest = []
    · subst hre
      have hend : st.artistId = endId := hrest
      intro x hx he
      exact hnv (by rw [hend, ← he]; exact hx)
    · intro x hx
      exact ih st.artistId (cur :: v) hrest hre x (List.mem_cons_of_mem _ hx)

theorem dfs_complete {conns : List Conn} {endId : String} :
    ∀ (ext : List Step) (fuel : Nat) (cur : String) (path : List Step)
      (visited : List String), chain conns endId cur visited ext →
      ext.length < fuel →
      path ++ ext ∈ dfs conns endId fuel cur path visited := by
  intro ext
  induction ext with
  | nil =>
    intro fuel cur path visited hch hlen
    cases fuel with
    | zero => simp at hlen
    | succ n =>
      have hc : cur = endId := hch
      simp [dfs, hc]
  | cons st rest ih =>
    intro fuel cur path visited hch hlen
    obtain ⟨hcmem, hconn, hnv, hrest⟩ := hch
    cases fuel with
    | zero => simp at hlen
    | succ n =>
      have hcne : cur ≠ endId :=
        chain_avoids_end (st :: rest) cur visited ⟨hcmem, hconn, hnv, hrest⟩
          (by simp) cur (List.mem_cons_self cur visited)
      simp only [dfs, if_neg hcne, List.mem_flatten]
      refine ⟨dfs conns endId n st.artistId (path ++ [st]) (cur :: visited), ?_, ?_⟩
      · refine List.mem_map.mpr ⟨st.conn, hcmem, ?_⟩
        have hcs : connStep st.conn cur (cur :: visited) = some st.artistId :=
          (connStep_iff (List.mem_cons_self cur visited)).mpr ⟨hconn, hnv⟩
        simp only [hcs]
      · have hmem := ih n st.artistId (path ++ [st]) (cur :: visited) hrest
          (by simp only [List.length_cons] at hlen; omega)
        simpa [List.append_assoc] using hmem

theorem chain_nodup {conns : List Conn} {endId : String} :
    ∀ (ext : List Step) (cur : String) (v : List String),
      chain conns endId cur v ext →
      (cur :: ext.map Step.artistId).Nodup ∧
        ∀ n ∈ ext.map Step.artistId, n ∉ v := by
  intro ext
  induction ext with
  | nil => intro cur v _; simp
  | cons st rest ih =>
    intro cur v hch
    obtain ⟨-, -, hnv, hrest⟩ := hch
    obtain ⟨hnd, hnin⟩ := ih st.artistId (cur :: v) hrest
    have hidnv : st.artistId ≠ cur ∧ st.artistId ∉ v := by
      simpa using hnv
    constructor
    · rw [List.map_cons, List.nodup_cons]
      refine ⟨?_, hnd⟩
      intro hmem
      rcases List.mem_cons.mp hmem with he | hm
      · exact hidnv.1 he.symm
      · exact hnin cur hm (List.mem_cons_self cur v)
    · intro x hx
      rw [List.map_cons] at hx
      rcases List.mem_cons.mp hx with he | hm
      · rw [he]; exact hidnv.2
      · intro hxv
        exact hnin x hm (List.mem_cons_of_mem cur hxv)

theorem chain_last {conns : List Conn} {endId : String} :
    ∀ (ext : List Step) (cur : String) (v : List String),
      chain conns endId cur v ext → ext ≠ [] →
      (ext.map Step.artistId).getLast? = some endId := by
  intro ext
  induction ext with
  | nil => intro cur v _ hne; exact absurd rfl hne
  | cons st rest ih =>
    intro cur v hch _
    obtain ⟨-, -, -, hrest⟩ := hch
    cases rest with
    | nil =>
      have hend : st.artistId = endId := hrest
      simp [hend]
    | cons r rs =>
      have h2 := ih st.artistId (cur :: v) hrest (by simp)
      simpa using h2

theorem sortedHead_min {all : List (List Step)} {p : List Step}
    {rest : List (List Step)} (h : List.insertionSort lenLE all = p :: rest) :
    ∀ q ∈ all, p.length ≤ q.length := by
  haveI : IsTotal (List Step) lenLE := ⟨fun a b => Nat.le_total a.length b.length⟩
  haveI : IsTrans (List Step) lenLE := ⟨fun a b c hab hbc => Nat.le_trans hab hbc⟩
  have hs : List.Sorted lenLE (List.insertionSort lenLE all) :=
    List.sorted_insertionSort lenLE all
  intro q hq
  have hq2 : q ∈ p :: rest := by
    rw [← h]
    exact (List.perm_insertionSort lenLE all).mem_iff.mpr hq
  rcases List.mem_cons.mp hq2 with rfl | hq3
  · exact le_refl _
  · rw [h] at hs
    exact List.rel_of_sorted_cons hs q hq3

/-- C2: when `findAllPaths` returns a path, it is a simple path (no entity
visited twice) from `startId` to `endId` of at most `maxDepth` edges, and no
simple path of at most `maxDepth` edges between the same ids has strictly
fewer edges. -/
theorem findAllPaths_shortest (g : Graph) (s e : String) (d : Nat)
    (p : List Step) (h : findAllPaths g s e d = some p) :
    chain g.connections e s [] p ∧
    (s :: p.map Step.artistId).Nodup ∧
    (p.map Step.artistId).getLast? = some e ∧
    p.length ≤ d ∧
    ∀ q, chain g.connections e s [] q → q.length ≤ d → p.length ≤ q.length := by
  unfold findAllPaths at h
  by_cases hguard : s = "" ∨ e = "" ∨ s = e
  · simp [hguard] at h
  · rw [if_neg hguard] at h
    cases hsort : List.insertionSort lenLE (dfs g.connections e (d + 1) s [] []) with
    | nil => rw [hsort] at h; exact absurd h (by simp)
    | cons p0 rest =>
      rw [hsort] at h
      simp only [Option.some.injEq] at h
      subst h
      have hpmem : p0 ∈ dfs g.connections e (d + 1) s [] [] := by
        have hmem : p0 ∈ List.insertionSort lenLE (dfs g.connections e (d + 1) s [] []) := by
          rw [hsort]; exact List.mem_cons_self p0 rest
        exact (List.perm_insertionSort lenLE _).mem_iff.mp hmem
      obtain ⟨ext, hq, hch, hlen⟩ := dfs_sound (d + 1) s [] [] p0 hpmem
      simp only [List.nil_append] at hq
      subst hq
      have hne : p0 ≠ [] := by
        intro hnil
        rw [hnil] at hch
        exact hguard (Or.inr (Or.inr hch))
      refine ⟨hch, (chain_nodup p0 s [] hch).1, chain_last p0 s [] hch hne,
        by omega, ?_⟩
      intro q hqch hqd
      have hqmem : q ∈ dfs g.connections e (d + 1) s [] [] := by
        have := dfs_complete q (d + 1) s [] [] hqch (by omega)
        simpa using this
      exact sortedHead_min hsort q hqmem

/-- A small graph with routes a-b, b-c and a-c, for the route witnesses. -/
def routeGraph : Graph :=
  ⟨[], [⟨"a", "b", "member"⟩, ⟨"b", "c", "member"⟩, ⟨"a", "c", "studio"⟩]⟩

/-- The shortest a-to-c route of `routeGraph`: the direct studio edge. -/
def routeResult : List Step := [⟨⟨"a", "c", "studio"⟩, "c"⟩]

/-- Concrete witness for C2: on `routeGraph` the one-edge route beats the
two-edge one, and all the guarantees of `findAllPaths_shortest` hold. -/
theorem findAllPaths_shortest_witness :
    findAllPaths routeGraph "a" "c" 6 = some routeResult ∧
    (chain routeGraph.connections "c" "a" [] routeResult ∧
     ("a" :: routeResult.map Step.artistId).Nodup ∧
     (routeResult.map Step.artistId).getLast? = some "c" ∧
     routeResult.length ≤ 6 ∧
     ∀ q, chain routeGraph.connections "c" "a" [] q → q.length ≤ 6 →
       routeResult.length ≤ q.length) :=
  ⟨by decide, findAllPaths_shortest routeGraph "a" "c" 6 routeResult (by decide)⟩

/-- C6 (amended): `findAllPaths` returns `none` when the ids are equal, when
either id is the empty (falsy) string, and when no simple path of at most
`maxDepth` edges exists in the connection list; membership of the ids in the
entity map is not part of the check. -/
theorem findAllPaths_none (g : Graph) (s e : String) (d : Nat)
    (h : s = "" ∨ e = "" ∨ s = e ∨
      ¬ ∃ q, chain g.connections e s [] q ∧ q.length ≤ d) :
    findAllPaths g s e d = none := by
  unfold findAllPaths
  by_cases hguard : s = "" ∨ e = "" ∨ s = e
  · rw [if_pos hguard]
  · rw [if_neg hguard]
    have hnp : ¬ ∃ q, chain g.connections e s [] q ∧ q.length ≤ d := by
      rcases h with h | h | h | h
      · exact absurd (Or.inl h) hguard
      · exact absurd (Or.inr (Or.inl h)) hguard
      · exact absurd (Or.inr (Or.inr h)) hguard
      · exact h
    cases hsort : List.insertionSort lenLE (dfs g.connections e (d + 1) s [] []) with
    | nil => rfl
    | cons p0 rest =>
      exfalso
      have hpmem : p0 ∈ dfs g.connections e (d + 1) s [] [] := by
        have hmem : p0 ∈ List.insertionSort lenLE (dfs g.connections e (d + 1) s [] []) := by
          rw [hsort]; exact List.mem_cons_self p0 rest
        exact (List.perm_insertionSort lenLE _).mem_iff.mp hmem
      obtain ⟨ext, hq, hch, hlen⟩ := dfs_sound (d + 1) s [] [] p0 hpmem
      simp only [List.nil_append] at hq
      subst hq
      exact hnp ⟨p0, hch, by omega⟩

/-- Concrete witness for C6 (amended): equal start and end ids yield `none`. -/
theorem findAllPaths_none_witness :
    findAllPaths routeGraph "a" "a" 6 = none :=
  findAllPaths_none routeGraph "a" "a" 6 (Or.inr (Or.inr (Or.inl rfl)))

/-- A graph whose entity map is empty but whose connection list mentions
ids "a" and "b" (dangling references, which the store tolerates). -/
def danglingGraph : Graph := ⟨[], [⟨"a", "b", "member"⟩]⟩

/-- Counterexample to C6 as stated: both ids are missing from the entity
map, yet `findAllPaths` still returns a path — the implementation never
consults `graph.artists`. -/
theorem findAllPaths_missing_id_counterexample :
    danglingGraph.artists = [] ∧
    findAllPaths danglingGraph "a" "b" 6 = some [⟨⟨"a", "b", "member"⟩, "b"⟩] :=
  ⟨rfl, by decide⟩

/-! ### Route geometry (`generateOctilinearPath`)

Coordinates are modelled as exact rationals; `Math.sqrt` enters the
computation only through the perpendicular-offset displacements, so it is
abstracted as an arbitrary function `sq` and every theorem below is proved
for all such functions — in particular for the actual square root. -/

/-- `generateOctilinearPath(x1, y1, x2, y2, offset)`: the polyline vertices
of the returned SVG path string (`M p L p [L p]`). -/
def generateOctilinearPath (sq : ℚ → ℚ) (x1 y1 x2 y2 off : ℚ) : List (ℚ × ℚ) :=
  let dx := x2 - x1
  let dy := y2 - y1
  let adx := |dx|
  let ady := |dy|
  if ady < 5 then [(x1, y1 + off), (x2, y2 + off)]
  else if adx < 5 then [(x1 + off, y1), (x2 + off, y2)]
  else if |adx - ady| < 5 then
    let len := sq (dx * dx + dy * dy)
    let perpX := -dy / len * off
    let perpY := dx / len * off
    [(x1 + perpX, y1 + perpY), (x2 + perpX, y2 + perpY)]
  else
    let signX : ℚ := if 0 < dx then 1 else -1
    let signY : ℚ := if 0 < dy then 1 else -1
    if ady < adx then
      let diagPerpX := -signY / sq 2
      let diagPerpY := signX / sq 2
      let p1x := x1 + diagPerpX * off
      let p1y := y1 + diagPerpY * off
      let p2y := y2 + off
      let slope := signY / signX
      let cornerX := p1x + (p2y - p1y) / slope
      [(p1x, p1y), (cornerX, p2y), (x2, p2y)]
    else
      let diagPerpX := -signY / sq 2
      let diagPerpY := signX / sq 2
      let p1x := x1 + diagPerpX * off
      let p1y := y1 + diagPerpY * off
      let p2x := x2 - off
      let slope := signY / signX
      let cornerY := p1y + slope * (p2x - p1x)
      [(p1x, p1y), (p2x, cornerY), (p2x, y2)]

/-- A segment is octilinear: purely vertical, purely horizontal, or at
exactly 45 degrees. -/
def segOcti (p q : ℚ × ℚ) : Prop :=
  q.1 = p.1 ∨ q.2 = p.2 ∨ |q.1 - p.1| = |q.2 - p.2|

/-- Every consecutive segment of the polyline is octilinear. -/
def pathOcti : List (ℚ × ℚ) → Prop
  | p :: q :: rest => segOcti p q ∧ pathOcti (q :: rest)
  | _ => True

/-- Counterexample to C3 as stated: within the tolerance band (here a rise
of 3 over a run of 100) the path is a single slightly sloped segment, not a
multiple of 45 degrees. -/
theorem octilinear_counterexample :
    ¬ pathOcti (generateOctilinearPath (fun _ => 0) 0 0 100 3 0) := by
  unfold generateOctilinearPath
  norm_num [pathOcti, segOcti]

/-- C3 (amended): every segment is horizontal, vertical, or exactly 45°
whenever the endpoints are exactly axis-aligned, exactly diagonal, or fall
in the general two-segment elbow case (both extents and their difference at
least the tolerance 5); only the near-miss tolerance-band inputs produce an
off-axis segment. -/
theorem octilinear_amended (sq : ℚ → ℚ) (x1 y1 x2 y2 off : ℚ)
    (h : y2 - y1 = 0 ∨ x2 - x1 = 0 ∨ |x2 - x1| = |y2 - y1| ∨
      (5 ≤ |x2 - x1| ∧ 5 ≤ |y2 - y1| ∧ 5 ≤ |(|x2 - x1| - |y2 - y1|)|)) :
    pathOcti (generateOctilinearPath sq x1 y1 x2 y2 off) := by
  unfold generateOctilinearPath
  by_cases h1 : |y2 - y1| < 5
  · rw [if_pos h1]
    rcases h with h | h | h | h
    · exact ⟨Or.inr (Or.inl (by simp; linarith)), trivial⟩
    · exact ⟨Or.inl (by simp; linarith), trivial⟩
    · refine ⟨Or.inr (Or.inr ?_), trivial⟩
      simpa using h
    · exact absurd h1 (by push_neg; exact h.2.1)
  · rw [if_neg h1]
    by_cases h2 : |x2 - x1| < 5
    · rw [if_pos h2]
      rcases h with h | h | h | h
      · exact absurd h1 (by rw [h]; norm_num)
      · exact ⟨Or.inl (by simp; linarith), trivial⟩
      · exact absurd (h ▸ h2) h1
      · exact absurd h2 (by push_neg; exact h.1)
    · rw [if_neg h2]
      by_cases h3 : |(|x2 - x1| - |y2 - y1|)| < 5
      · rw [if_pos h3]
        rcases h with h | h | h | h
        · exact absurd h1 (by rw [h]; norm_num)
        · exact absurd h2 (by rw [h]; norm_num)
        · refine ⟨Or.inr (Or.inr ?_), trivial⟩
          simpa using h
        · exact absurd h3 (by push_neg; exact h.2.2)
      · rw [if_neg h3]
        set sX : ℚ := if 0 < x2 - x1 then (1 : ℚ) else -1 with hsX
        set sY : ℚ := if 0 < y2 - y1 then (1 : ℚ) else -1 with hsY
        have hax : |sX| = 1 := by rw [hsX]; split_ifs <;> norm_num
        have hay : |sY| = 1 := by rw [hsY]; split_ifs <;> norm_num
        have hslope : |sY / sX| = 1 := by rw [abs_div, hax, hay]; norm_num
        by_cases h4 : |y2 - y1| < |x2 - x1|
        · rw [if_pos h4]
          refine ⟨Or.inr (Or.inr ?_), Or.inr (Or.inl rfl), trivial⟩
          dsimp only
          rw [add_sub_cancel_left, abs_div, hslope, div_one]
        · rw [if_neg h4]
          refine ⟨Or.inr (Or.inr ?_), Or.inl rfl, trivial⟩
          dsimp only
          rw [add_sub_cancel_left, abs_mul, hslope, one_mul]

/-- Concrete witness for C3 (amended): an exact 45° diagonal input yields an
octilinear path. -/
theorem octilinear_amended_witness :
    (|(10 : ℚ) - 0| = |(10 : ℚ) - 0|) ∧
    pathOcti (generateOctilinearPath (fun _ => 0) 0 0 10 10 3) :=
  ⟨rfl, octilinear_amended (fun _ => 0) 0 0 10 10 3
    (Or.inr (Or.inr (Or.inl rfl)))⟩

/-! ### Bundling (`getBundledConnections`, `getBundleOffset`, `LINE_TYPE_OFFSET`) -/

/-- JS `[conn.from, conn.to].sort().join('-')`: the undirected pair key. -/
def pairKey (a b : String) : String :=
  if a ≤ b then a ++ "-" ++ b else b ++ "-" ++ a

/-- Append a connection to its bundle, creating the bundle at the end of the
object's key order on first sight (JS `if (!bundles[key]) bundles[key] = [];
bundles[key].push(conn)`). -/
def addToBundle : List (String × List Conn) → String → Conn →
    List (String × List Conn)
  | [], k, c => [(k, [c])]
  | (k2, l) :: rest, k, c =>
    if k2 = k then (k2, l ++ [c]) :: rest else (k2, l) :: addToBundle rest k c

/-- `getBundledConnections(connections)`: group by undirected pair key,
preserving insertion order inside each bundle. -/
def getBundledConnections (conns : List Conn) : List (String × List Conn) :=
  conns.foldl (fun bs c => addToBundle bs (pairKey c.from_ c.to_) c) []

/-- Gap between parallel lines, JS `LINE_GAP = 12`. -/
def LINE_GAP : ℚ := 12

/-- `getBundleOffset(index, total, gap)`: symmetric fan-out around the
centerline, zero for a singleton bundle. -/
def getBundleOffset (index total : Nat) (gap : ℚ) : ℚ :=
  if total = 1 then 0 else ((index : ℚ) - ((total : ℚ) - 1) / 2) * gap

/-- The fixed per-type perpendicular offsets, JS `LINE_TYPE_OFFSET`. -/
def LINE_TYPE_OFFSET : List (String × ℚ) :=
  [("member", 0), ("studio", LINE_GAP), ("writing", -LINE_GAP),
   ("label", LINE_GAP * 3 / 2), ("feature", -(LINE_GAP * 3 / 2)),
   ("cover", LINE_GAP * 2)]

/-- JS `LINE_TYPE_OFFSET[conn.type] || 0`: a missing (or zero) entry gives 0. -/
def typeOffsetOf (t : String) : ℚ := (LINE_TYPE_OFFSET.lookup t).getD 0

/-- The total offset assigned by the connection render to the bundle member
at position `i` (JS object identity makes `bundle.indexOf(conn)` the
position of the iterated connection):
`LINE_TYPE_OFFSET[conn.type] || 0` plus `getBundleOffset(i, n, LINE_GAP)`. -/
def totalOffsetAt (bundle : List Conn) (i : Nat) : ℚ :=
  match bundle.get? i with
  | some c => typeOffsetOf c.type_ + getBundleOffset i bundle.length LINE_GAP
  | none => 0

/-- The two-connection list of the C4 counterexample: a studio line and a
member line between the same endpoints. -/
def mixedBundleConns : List Conn :=
  [⟨"a", "b", "studio"⟩, ⟨"a", "b", "member"⟩]

theorem pairKey_ab : pairKey "a" "b" = "a-b" := by
  unfold pairKey
  rw [if_pos (by rw [String.le_iff_toList_le]; decide)]
  rfl

/-- Counterexample to C4 as stated: two distinct relationships of different
types in the same bundle receive the same total offset (both 6), so the two
parallel lines coincide. -/
theorem bundle_offset_counterexample :
    getBundledConnections mixedBundleConns = [("a-b", mixedBundleConns)] ∧
    mixedBundleConns.get? 0 ≠ mixedBundleConns.get? 1 ∧
    totalOffsetAt mixedBundleConns 0 = totalOffsetAt mixedBundleConns 1 := by
  refine ⟨?_, by decide, ?_⟩
  · simp [getBundledConnections, mixedBundleConns, addToBundle, pairKey_ab]
  · show typeOffsetOf "studio" + getBundleOffset 0 2 LINE_GAP =
      typeOffsetOf "member" + getBundleOffset 1 2 LINE_GAP
    have h1 : typeOffsetOf "studio" = 12 := by decide
    have h2 : typeOffsetOf "member" = 0 := by decide
    rw [h1, h2]
    norm_num [getBundleOffset, LINE_GAP]

/-- C4 (amended): within any bundle produced by grouping, two distinct
members of the same type always receive distinct total offsets (their
bundle offsets differ by a nonzero multiple of the gap); members of
different types may coincide. -/
theorem bundle_offset_distinct (conns : List Conn) (k : String)
    (b : List Conn) (i j : Nat) (hmem : (k, b) ∈ getBundledConnections conns)
    (hij : i < j) (hj : j < b.length) (ci cj : Conn) (hci : b.get? i = some ci)
    (hcj : b.get? j = some cj) (hty : ci.type_ = cj.type_) :
    totalOffsetAt b i ≠ totalOffsetAt b j := by
  unfold totalOffsetAt
  rw [hci, hcj]
  show typeOffsetOf ci.type_ + getBundleOffset i b.length LINE_GAP ≠
    typeOffsetOf cj.type_ + getBundleOffset j b.length LINE_GAP
  rw [hty]
  have hb2 : b.length ≠ 1 := by omega
  unfold getBundleOffset
  rw [if_neg hb2, if_neg hb2]
  intro heq
  have h5 := add_left_cancel heq
  have h6 := mul_right_cancel₀ (by norm_num [LINE_GAP] : LINE_GAP ≠ 0) h5
  have h7 : (i : ℚ) = (j : ℚ) := sub_left_inj.mp h6
  have h8 : i = j := by exact_mod_cast h7
  omega

/-- A bundle of two same-type connections, for the C4 witness. -/
def sameTypeBundleConns : List Conn :=
  [⟨"a", "b", "studio"⟩, ⟨"a", "b", "studio"⟩]

/-- Concrete witness for C4 (amended): two studio lines in one bundle get
different total offsets (6 and 18). -/
theorem bundle_offset_distinct_witness :
    totalOffsetAt sameTypeBundleConns 0 ≠ totalOffsetAt sameTypeBundleConns 1 :=
  bundle_offset_distinct sameTypeBundleConns "a-b" sameTypeBundleConns 0 1
    (by simp [getBundledConnections, sameTypeBundleConns, addToBundle, pairKey_ab])
    (by decide) (by decide) ⟨"a", "b", "studio"⟩ ⟨"a", "b", "studio"⟩
    (by decide) (by decide) rfl

/-! ### Edit history (`pushHistory`, `undo`, `redo`)

Snapshots are `JSON.stringify`/`JSON.parse` round trips, i.e. deep value
copies; they are modelled as `Graph` values directly.  The component state
is the `history` array, the `historyIndex` cursor (a JS number that can be
-1, hence `Int`), and the current `graph`.  `undo`/`redo` read
`history[historyIndex]`/`history[historyIndex + 2]`; an out-of-range read
would make `JSON.parse(undefined)` throw, which is modelled as `none` (it
never happens in a reachable state). -/

/-- The history-related component state. -/
structure HState where
  history : List Graph
  index : Int
  graph : Graph
deriving DecidableEq, Repr

/-- JS `array.slice(0, e)` (a negative `e` counts from the end). -/
def jsSlice0 {α : Type} (l : List α) (e : Int) : List α :=
  if e < 0 then l.take ((l.length : Int) + e).toNat else l.take e.toNat

/-- JS `array[i]`: `none` stands for `undefined`. -/
def jsGet {α : Type} (l : List α) (i : Int) : Option α :=
  if i < 0 then none else l.get? i.toNat

/-- `pushHistory`: truncate the redo tail, append the current graph, drop
the oldest entry beyond 50, and advance the cursor (capped at 49). -/
def pushH (s : HState) : HState :=
  let nh := jsSlice0 s.history (s.index + 1) ++ [s.graph]
  ⟨if 50 < nh.length then nh.tail else nh, min (s.index + 1) 49, s.graph⟩

/-- A caller mutation between history operations: `setGraph(m)`. -/
def setG (s : HState) (m : Graph) : HState := ⟨s.history, s.index, m⟩

/-- `undo`: no-op below the earliest snapshot; at the end of history it
first appends the current graph (so redo can return to it), then restores
`history[historyIndex]` and decrements the cursor. -/
def undoH (s : HState) : Option HState :=
  if s.index < 0 then some s
  else
    match jsGet s.history s.index with
    | none => none
    | some g =>
      some ⟨if s.index = (s.history.length : Int) - 1 then s.history ++ [s.graph]
            else s.history,
        s.index - 1, g⟩

/-- `redo`: no-op at or beyond `history.length - 2`; otherwise restores
`history[historyIndex + 2]` and increments the cursor. -/
def redoH (s : HState) : Option HState :=
  if (s.history.length : Int) - 2 ≤ s.index then some s
  else
    match jsGet s.history (s.index + 2) with
    | none => none
    | some g => some ⟨s.history, s.index + 1, g⟩

/-- The states reachable from the initial `useState([])` / `useState(-1)`
state by pushes, caller mutations, undos and redos. -/
inductive Reachable : HState → Prop where
  | init (g : Graph) : Reachable ⟨[], -1, g⟩
  | push {s : HState} : Reachable s → Reachable (pushH s)
  | set {s : HState} (m : Graph) : Reachable s → Reachable (setG s m)
  | undo {s s' : HState} : Reachable s → undoH s = some s' → Reachable s'
  | redo {s s' : HState} : Reachable s → redoH s = some s' → Reachable s'

/-- The inductive invariant of the history state: the cursor stays in
`[-1, 49]` and within the history, and the history holds at most 51
snapshots. -/
def HInv (s : HState) : Prop :=
  -1 ≤ s.index ∧ s.index ≤ 49 ∧ s.index + 1 ≤ (s.history.length : Int) ∧
    s.history.length ≤ 51

theorem jsGet_concat {α : Type} (l : List α) (a : α) :
    jsGet (l ++ [a]) (l.length : Int) = some a := by
  unfold jsGet
  rw [if_neg (by omega)]
  rw [show ((l.length : Int)).toNat = l.length from by omega]
  exact List.get?_concat_length l a

theorem jsGet_tail_succ {α : Type} (l : List α) (i : Int) (h : 0 ≤ i) :
    jsGet l.tail i = jsGet l (i + 1) := by
  unfold jsGet
  rw [if_neg (by omega), if_neg (by omega)]
  rw [← List.drop_one, List.get?_drop]
  congr 1
  omega

theorem pushH_spec {s : HState} (h : HInv s) :
    (pushH s).history.length ≤ 50 ∧
    ((pushH s).index : Int) = ((pushH s).history.length : Int) - 1 ∧
    jsGet (pushH s).history (pushH s).index = some s.graph ∧
    (pushH s).graph = s.graph := by
  obtain ⟨h1, h2, h3, h4⟩ := h
  have hsl : jsSlice0 s.history (s.index + 1) = s.history.take (s.index + 1).toNat := by
    unfold jsSlice0
    rw [if_neg (by omega)]
  have htk : (s.history.take (s.index + 1).toNat).length = (s.index + 1).toNat := by
    rw [List.length_take]
    omega
  have hnh : (jsSlice0 s.history (s.index + 1) ++ [s.graph]).length =
      (s.index + 1).toNat + 1 := by
    rw [hsl, List.length_append, htk, List.length_singleton]
  have hget : jsGet (jsSlice0 s.history (s.index + 1) ++ [s.graph])
      ((jsSlice0 s.history (s.index + 1)).length : Int) = some s.graph :=
    jsGet_concat _ _
  have hlensl : (jsSlice0 s.history (s.index + 1)).length = (s.index + 1).toNat := by
    rw [hsl, htk]
  unfold pushH
  dsimp only
  by_cases hbig : 50 < (jsSlice0 s.history (s.index + 1) ++ [s.graph]).length
  · rw [if_pos hbig]
    have hidx : s.index = 49 := by omega
    have htail : (jsSlice0 s.history (s.index + 1) ++ [s.graph]).tail.length = 50 := by
      rw [List.length_tail, hnh]
      omega
    refine ⟨by omega, by rw [htail]; omega, ?_, rfl⟩
    have hmin : min (s.index + 1) 49 = 49 := by omega
    rw [hmin, jsGet_tail_succ _ _ (by omega)]
    rw [show (49 : Int) + 1 = ((jsSlice0 s.history (s.index + 1)).length : Int) from by
      rw [hlensl]; omega]
    exact hget
  · rw [if_neg hbig]
    have hmin : min (s.index + 1) 49 = s.index + 1 := by omega
    refine ⟨by omega, ?_, ?_, rfl⟩
    · rw [hmin, hnh]
      push_cast
      omega
    · rw [hmin]
      rw [show ((jsSlice0 s.history (s.index + 1)).length : Int) = s.index + 1 from by
        rw [hlensl]; omega] at hget
      exact hget

theorem hinv_push {s : HState} (h : HInv s) : HInv (pushH s) := by
  obtain ⟨hle, heq, -, -⟩ := pushH_spec h
  obtain ⟨h1, h2, h3, h4⟩ := h
  refine ⟨?_, ?_, by omega, by omega⟩
  · show -1 ≤ min (s.index + 1) 49
    omega
  · show min (s.index + 1) 49 ≤ 49
    omega

theorem hinv_undo {s s' : HState} (h : HInv s) (hu : undoH s = some s') :
    HInv s' := by
  obtain ⟨h1, h2, h3, h4⟩ := h
  unfold undoH at hu
  by_cases hneg : s.index < 0
  · rw [if_pos hneg] at hu
    simp only [Option.some.injEq] at hu
    subst hu
    exact ⟨h1, h2, h3, h4⟩
  · rw [if_neg hneg] at hu
    cases hg : jsGet s.history s.index with
    | none => rw [hg] at hu; exact absurd hu (by simp)
    | some g =>
      rw [hg] at hu
      simp only [Option.some.injEq] at hu
      subst hu
      unfold HInv
      dsimp only
      by_cases hend : s.index = (s.history.length : Int) - 1
      · rw [if_pos hend]
        simp only [List.length_append, List.length_singleton]
        refine ⟨by omega, by omega, by push_cast; omega, by omega⟩
      · rw [if_neg hend]
        exact ⟨by omega, by omega, by omega, h4⟩

theorem hinv_redo {s s' : HState} (h : HInv s) (hr : redoH s = some s') :
    HInv s' := by
  obtain ⟨h1, h2, h3, h4⟩ := h
  unfold redoH at hr
  by_cases hend : (s.history.length : Int) - 2 ≤ s.index
  · rw [if_pos hend] at hr
    simp only [Option.some.injEq] at hr
    subst hr
    exact ⟨h1, h2, h3, h4⟩
  · rw [if_neg hend] at hr
    cases hg : jsGet s.history (s.index + 2) with
    | none => rw [hg] at hr; exact absurd hr (by simp)
    | some g =>
      rw [hg] at hr
      simp only [Option.some.injEq] at hr
      subst hr
      unfold HInv
      dsimp only
      exact ⟨by omega, by omega, by omega, h4⟩

theorem reachable_hinv {s : HState} (h : Reachable s) : HInv s := by
  induction h with
  | init g => exact ⟨by norm_num, by norm_num, by norm_num, by norm_num⟩
  | push _ ih => exact hinv_push ih
  | set m _ ih => exact ih
  | undo _ hu ih => exact hinv_undo ih hu
  | redo _ hr ih => exact hinv_redo ih hr

/-- C8 (amended): in every reachable state the snapshot list holds at most
51 entries (at most 50 immediately after any push — a push over capacity
discards the oldest entry first — plus at most one synthetic current-state
entry appended by an undo taken at the end of history). -/
theorem history_capacity {s : HState} (h : Reachable s) :
    s.history.length ≤ 51 ∧ (pushH s).history.length ≤ 50 := by
  have hinv := reachable_hinv h
  exact ⟨hinv.2.2.2, (pushH_spec hinv).1⟩

/-- Concrete witness for C8 (amended): the initial state is reachable and
satisfies both bounds. -/
theorem history_capacity_witness :
    ((⟨[], -1, ⟨[], []⟩⟩ : HState).history.length ≤ 51 ∧
     (pushH ⟨[], -1, ⟨[], []⟩⟩).history.length ≤ 50) :=
  history_capacity (Reachable.init ⟨[], []⟩)

/-- Iterated pushes, for exhibiting the 51-entry state. -/
def pushN : Nat → HState → HState
  | 0, s => s
  | n + 1, s => pushN n (pushH s)

theorem reachable_pushN (n : Nat) {s : HState} (h : Reachable s) :
    Reachable (pushN n s) := by
  induction n generalizing s with
  | zero => exact h
  | succ m ih => exact ih (Reachable.push h)

/-- The state reached by 50 pushes followed by one undo: its history holds
51 snapshots. -/
def overflowState : HState :=
  ⟨List.replicate 51 ⟨[], []⟩, 48, ⟨[], []⟩⟩

set_option maxRecDepth 8000 in
/-- Counterexample to C8 as stated: a reachable state whose snapshot list
has 51 entries — push keeps the list at 50, but the first undo at the end
of history appends a 51st synthetic entry. -/
theorem history_capacity_counterexample :
    Reachable overflowState ∧ 50 < overflowState.history.length := by
  constructor
  · have h50 : Reachable (pushN 50 ⟨[], -1, ⟨[], []⟩⟩) :=
      reachable_pushN 50 (Reachable.init ⟨[], []⟩)
    have hu : undoH (pushN 50 ⟨[], -1, ⟨[], []⟩⟩) = some overflowState := by decide
    exact Reachable.undo h50 hu
  · decide

/-- C5: from any reachable state, push-then-mutate followed by one undo
restores the captured pre-mutation graph (deep equality), and a subsequent
redo restores the post-mutation graph. -/
theorem history_round_trip (s : HState) (m : Graph) (h : Reachable s) :
    ∃ s2 s3, undoH (setG (pushH s) m) = some s2 ∧ s2.graph = s.graph ∧
      redoH s2 = some s3 ∧ s3.graph = m := by
  have hinv := reachable_hinv h
  obtain ⟨hle, heq, hget, -⟩ := pushH_spec hinv
  set s1 := pushH s with hs1
  have hgood : 0 ≤ s1.index := by
    by_contra hneg
    push_neg at hneg
    unfold jsGet at hget
    rw [if_pos hneg] at hget
    exact absurd hget (by simp)
  refine ⟨⟨s1.history ++ [m], s1.index - 1, s.graph⟩,
    ⟨s1.history ++ [m], s1.index, m⟩, ?_, rfl, ?_, rfl⟩
  · show undoH ⟨s1.history, s1.index, m⟩ = _
    unfold undoH
    dsimp only
    rw [if_neg (by omega)]
    simp only [hget]
    rw [if_pos heq]
  · show redoH ⟨s1.history ++ [m], s1.index - 1, s.graph⟩ = _
    unfold redoH
    dsimp only
    rw [if_neg (by simp only [List.length_append, List.length_singleton]; push_cast; omega)]
    have hg2 : jsGet (s1.history ++ [m]) (s1.index - 1 + 2) = some m := by
      rw [show s1.index - 1 + 2 = (s1.history.length : Int) from by omega]
      exact jsGet_concat _ _
    simp only [hg2]
    rw [show s1.index - 1 + 1 = s1.index from by omega]

/-- Concrete witness for C5: the round trip from the reachable initial
state, mutating to a one-connection graph. -/
theorem history_round_trip_witness :
    ∃ s2 s3,
      undoH (setG (pushH ⟨[], -1, ⟨[], []⟩⟩) ⟨[], [⟨"a", "b", "member"⟩]⟩) = some s2 ∧
      s2.graph = (⟨[], -1, (⟨[], []⟩ : Graph)⟩ : HState).graph ∧
      redoH s2 = some s3 ∧ s3.graph = ⟨[], [⟨"a", "b", "member"⟩]⟩ :=
  history_round_trip ⟨[], -1, ⟨[], []⟩⟩ ⟨[], [⟨"a", "b", "member"⟩]⟩
    (Reachable.init ⟨[], []⟩)

/-! ### Cascade removal (`removeArtist`) -/

/-- The graph part of `removeArtist`: delete the key from the artists object
and keep only connections touching neither endpoint. -/
def removeArtist (g : Graph) (mbid : String) : Graph :=
  ⟨g.artists.filter (fun p => p.1 ≠ mbid),
   g.connections.filter (fun c => c.from_ ≠ mbid ∧ c.to_ ≠ mbid)⟩

theorem count_filter_eq {α : Type} [DecidableEq α] (p : α → Bool) (l : List α)
    (a : α) : (l.filter p).count a = if p a then l.count a else 0 := by
  induction l with
  | nil => simp
  | cons b t ih =>
    by_cases hb : p b
    · by_cases hab : a = b
      · subst hab
        simp [hb, List.count_cons, ih]
      · simp [hb, List.count_cons, ih, hab]
    · by_cases hab : a = b
      · subst hab
        simp [hb, List.count_cons, ih]
      · simp [hb, List.count_cons, ih, hab]

/-- C7 (amended): removing `x` keeps the entity list a subsequence of the
original containing exactly the entries keyed by other ids; connections
touching `x` are removed and all others keep their multiplicity and
relative order; the graph is unchanged (a no-op, not an error) when `x` is
absent from the entity map *and* no connection references `x` — a dangling
connection naming an absent `x` is still filtered out. -/
theorem removeArtist_spec (g : Graph) (x : String) :
    (removeArtist g x).artists.Sublist g.artists ∧
    (∀ p : String × Artist, p ∈ (removeArtist g x).artists ↔
      (p ∈ g.artists ∧ p.1 ≠ x)) ∧
    (removeArtist g x).connections.Sublist g.connections ∧
    (∀ c : Conn, (c.from_ ≠ x ∧ c.to_ ≠ x) →
      (removeArtist g x).connections.count c = g.connections.count c) ∧
    (∀ c : Conn, (c.from_ = x ∨ c.to_ = x) →
      (removeArtist g x).connections.count c = 0) ∧
    ((x ∉ g.artists.map Prod.fst ∧ ∀ c ∈ g.connections, c.from_ ≠ x ∧ c.to_ ≠ x) →
      removeArtist g x = g) := by
  refine ⟨List.filter_sublist _, ?_, List.filter_sublist _, ?_, ?_, ?_⟩
  · intro p
    simp [removeArtist, List.mem_filter]
  · intro c hc
    show (g.connections.filter _).count c = _
    rw [count_filter_eq]
    rw [if_pos (by simpa using hc)]
  · intro c hc
    show (g.connections.filter _).count c = 0
    rw [count_filter_eq]
    rw [if_neg (by simp; tauto)]
  · rintro ⟨hart, hconn⟩
    cases g with
    | mk as cs =>
      unfold removeArtist
      simp only [Graph.mk.injEq]
      constructor
      · rw [List.filter_eq_self]
        intro p hp
        simp only [ne_eq, decide_eq_true_eq]
        intro hpx
        exact hart (by simpa [hpx] using List.mem_map_of_mem Prod.fst hp)
      · rw [List.filter_eq_self]
        intro c hc
        simpa using hconn c hc

/-- Counterexample to C7 as stated: in a graph where id "a" is absent from
the entity map but a dangling connection mentions it, `removeArtist "a"` is
not a no-op — the dangling connection is filtered away. -/
theorem removeArtist_absent_counterexample :
    ("a" ∉ danglingGraph.artists.map Prod.fst) ∧
    removeArtist danglingGraph "a" ≠ danglingGraph := by
  refine ⟨by simp [danglingGraph], by decide⟩

/-- A graph with one artist "b" and a self-connection, untouched by
removing the absent id "a". -/
def cleanGraph : Graph :=
  ⟨[("b", ⟨"b", "B", none, 0, 0⟩)], [⟨"b", "b", "member"⟩]⟩

/-- Concrete witness for C7 (amended): removal of an id that appears
nowhere leaves the concrete graph unchanged. -/
theorem removeArtist_spec_witness :
    removeArtist cleanGraph "a" = cleanGraph :=
  (removeArtist_spec cleanGraph "a").2.2.2.2.2 ⟨by decide, by decide⟩

/-! ### Persistence (`loadGraphFromStorage`)

The stored snapshot is modelled as `Option Jval`: `none` stands for an
absent key, an empty string, or a `JSON.parse` failure (all of which take
the same code path), `some j` for a successfully parsed JSON value. -/

/-- A parsed JSON value. -/
inductive Jval where
  | jnull : Jval
  | jbool : Bool → Jval
  | jnum : ℚ → Jval
  | jstr : String → Jval
  | jarr : List Jval → Jval
  | jobj : List (String × Jval) → Jval

/-- JS truthiness of a JSON value. -/
def jtruthy : Jval → Bool
  | .jnull => false
  | .jbool b => b
  | .jnum q => q != 0
  | .jstr s => s != ""
  | .jarr _ => true
  | .jobj _ => true

/-- JS member access `value[key]`: `none` stands for `undefined` (member
access on `null` throws instead, handled at the call site). -/
def getField : Jval → String → Option Jval
  | .jobj fields, k => fields.lookup k
  | _, _ => none

/-- Truthiness of a possibly-`undefined` value. -/
def optTruthy : Option Jval → Bool
  | none => false
  | some v => jtruthy v

/-- The default empty graph `{ artists: {}, connections: [] }`. -/
def emptyGraphJson : Jval :=
  .jobj [("artists", .jobj []), ("connections", .jarr [])]

/-- `loadGraphFromStorage`: return the parsed value only when both
top-level keys are present and truthy; on an absent/unparsable snapshot
(`none`), a thrown member access (`null`), or a failed validation, fall
back to the empty graph. -/
def loadGraphFromStorage : Option Jval → Jval
  | none => emptyGraphJson
  | some Jval.jnull => emptyGraphJson
  | some j =>
    if optTruthy (getField j "artists") && optTruthy (getField j "connections")
    then j else emptyGraphJson

/-- C9: the loader returns the empty graph whenever the stored value is
absent or unparsable, and whenever either top-level key (`artists`,
`connections`) is missing from the parsed value — never a partially
loaded graph. -/
theorem loadGraph_rejects_malformed (saved : Option Jval)
    (h : saved = none ∨ ∃ j, saved = some j ∧
      (getField j "artists" = none ∨ getField j "connections" = none)) :
    loadGraphFromStorage saved = emptyGraphJson := by
  rcases h with rfl | ⟨j, rfl, hmiss⟩
  · rfl
  · cases j with
    | jnull => rfl
    | jbool b => rfl
    | jnum q => rfl
    | jstr s => rfl
    | jarr xs => rfl
    | jobj fields =>
      have hfalse : (optTruthy (getField (Jval.jobj fields) "artists") &&
          optTruthy (getField (Jval.jobj fields) "connections")) = false := by
        rcases hmiss with hm | hm
        · simp [hm, optTruthy]
        · simp [hm, optTruthy]
      simp [loadGraphFromStorage, hfalse]

/-- Concrete witness for C9: a snapshot with an `artists` key but no
`connections` key is rejected in favor of the empty graph. -/
theorem loadGraph_rejects_malformed_witness :
    loadGraphFromStorage (some (Jval.jobj [("artists", Jval.jobj [])])) =
      emptyGraphJson :=
  loadGraph_rejects_malformed (some (Jval.jobj [("artists", Jval.jobj [])]))
    (Or.inr ⟨Jval.jobj [("artists", Jval.jobj [])], rfl, Or.inr rfl⟩)

end Counterpoint
